import Mathlib

/-!
Verification of the Ruh retrieval engine against its specification.

The development shallowly embeds the Python sources:
* `app/services/vector_store.py` (`VectorStore`: `add_vectors`, `search`,
  `delete`, `clear`, `load`, `_matches_filter`),
* `app/services/verse_service.py` (`search_verses_by_theme` and the
  chapter-score aggregation of `search_chapters_by_theme`),
* `app/services/wellness_service.py` (`_detect_wellness_categories` and the
  static wellness-category table).

Machine floats are modelled by exact rationals.  A cosine-similarity value
`dot/(‖v‖·‖q‖)` is irrational in general, so scores are represented exactly
as pairs `(num, rad)` with positive `rad`, denoting the real number
`num / √rad`; the decidable comparator `scoreLeB` is proved to agree with
the real-number order of the denoted values (`scoreLeB_iff`).
-/

/-- Vectors are finite sequences of exact rationals (model of numpy rows). -/
abbrev Vec := List ℚ

/-- Dot product of two vectors, `np.dot` on equal-length rows. -/
def dot (a b : Vec) : ℚ := (List.zipWith (· * ·) a b).sum

/-- Sum of squares of the entries; `np.linalg.norm v` is its square root,
so `norm v == 0` iff `normSq v = 0`. -/
def normSq (v : Vec) : ℚ := (v.map (fun x => x * x)).sum

theorem normSq_nonneg (v : Vec) : 0 ≤ normSq v := by
  induction v with
  | nil => simp [normSq]
  | cons x xs ih =>
    have hx : 0 ≤ x * x := mul_self_nonneg x
    simpa [normSq] using add_nonneg hx (by simpa [normSq] using ih)

/-- Exact representation of a similarity value: `⟨(n, r), _⟩` denotes the
real number `n / √r`, with `r > 0`. -/
def Score := { p : ℚ × ℚ // 0 < p.2 }

instance : DecidableEq Score := fun a b =>
  decidable_of_iff (a.val = b.val) Subtype.ext_iff.symm

/-- Numerator of a score. -/
def Score.num (s : Score) : ℚ := s.val.1

/-- Radicand of the (positive) denominator of a score. -/
def Score.rad (s : Score) : ℚ := s.val.2

theorem Score.rad_pos (s : Score) : 0 < s.rad := s.property

/-- Build the score `n / √r`; a non-positive radicand falls back to the
exact value `0` (used precisely for zero-norm rows, whose similarity the
code sets to `0` without dividing). -/
def mkScore (n r : ℚ) : Score := if h : 0 < r then ⟨(n, r), h⟩ else ⟨(0, 1), one_pos⟩

/-- Decides `x ≤ y` on denoted real values `num/√rad` without square roots:
sign analysis plus cross-multiplied squares. -/
def scoreLeB (x y : Score) : Bool :=
  if 0 < x.num then
    decide (0 < y.num) && decide (x.num ^ 2 * y.rad ≤ y.num ^ 2 * x.rad)
  else if y.num < 0 then
    decide (y.num ^ 2 * x.rad ≤ x.num ^ 2 * y.rad)
  else
    true

/-- The real number denoted by a score. -/
noncomputable def Score.toReal (s : Score) : ℝ := (s.num : ℝ) / Real.sqrt (s.rad : ℝ)

theorem mkScore_num_rad (n r : ℚ) (h : 0 < r) :
    (mkScore n r).num = n ∧ (mkScore n r).rad = r := by
  constructor <;> simp [mkScore, h, Score.num, Score.rad]

theorem mkScore_of_nonpos (n r : ℚ) (h : ¬ 0 < r) : mkScore n r = mkScore 0 1 := by
  simp [mkScore, h]

theorem scoreLeB_iff (x y : Score) : scoreLeB x y = true ↔ Score.toReal x ≤ Score.toReal y := by
  set a := x.num with ha_def
  set b := x.rad with hb_def
  set c := y.num with hc_def
  set d := y.rad with hd_def
  have hb : 0 < b := x.property
  have hd : 0 < d := y.property
  have hb' : (0 : ℝ) < (b : ℝ) := by exact_mod_cast hb
  have hd' : (0 : ℝ) < (d : ℝ) := by exact_mod_cast hd
  have hsb : (0 : ℝ) < Real.sqrt b := Real.sqrt_pos.mpr hb'
  have hsd : (0 : ℝ) < Real.sqrt d := Real.sqrt_pos.mpr hd'
  have hsb2 : Real.sqrt b * Real.sqrt b = (b : ℝ) := Real.mul_self_sqrt hb'.le
  have hsd2 : Real.sqrt d * Real.sqrt d = (d : ℝ) := Real.mul_self_sqrt hd'.le
  have hdiv : (Score.toReal x ≤ Score.toReal y) ↔
      (a : ℝ) * Real.sqrt d ≤ (c : ℝ) * Real.sqrt b := by
    unfold Score.toReal
    exact div_le_div_iff₀ hsb hsd
  rw [hdiv]
  unfold scoreLeB
  by_cases ha : 0 < a
  · have ha' : (0 : ℝ) < (a : ℝ) := by exact_mod_cast ha
    simp only [if_pos ha, Bool.and_eq_true, decide_eq_true_eq]
    constructor
    · rintro ⟨hc, hle⟩
      have hc' : (0 : ℝ) < (c : ℝ) := by exact_mod_cast hc
      have h1 : (0 : ℝ) ≤ (a : ℝ) * Real.sqrt d := by positivity
      have h2 : (0 : ℝ) ≤ (c : ℝ) * Real.sqrt b := by positivity
      have hle' : (a : ℝ) ^ 2 * d ≤ (c : ℝ) ^ 2 * b := by exact_mod_cast hle
      nlinarith [sq_nonneg ((a : ℝ) * Real.sqrt d - (c : ℝ) * Real.sqrt b),
        sq_nonneg ((a : ℝ) * Real.sqrt d + (c : ℝ) * Real.sqrt b)]
    · intro h
      have hc' : (0 : ℝ) < (c : ℝ) := by
        by_contra hc
        push_neg at hc
        have : (c : ℝ) * Real.sqrt b ≤ 0 := mul_nonpos_of_nonpos_of_nonneg hc hsb.le
        have : (a : ℝ) * Real.sqrt d ≤ 0 := le_trans h this
        nlinarith
      have hc : 0 < c := by exact_mod_cast hc'
      refine ⟨hc, ?_⟩
      have key : (a : ℝ) ^ 2 * d ≤ (c : ℝ) ^ 2 * b := by
        nlinarith [mul_pos ha' hsd, mul_pos hc' hsb]
      exact_mod_cast key
  · simp only [if_neg ha]
    push_neg at ha
    have ha' : (a : ℝ) ≤ 0 := by exact_mod_cast ha
    by_cases hc : c < 0
    · have hc' : (c : ℝ) < 0 := by exact_mod_cast hc
      have h1 : (a : ℝ) * Real.sqrt d ≤ 0 := mul_nonpos_of_nonpos_of_nonneg ha' hsd.le
      have h2 : (c : ℝ) * Real.sqrt b < 0 := mul_neg_of_neg_of_pos hc' hsb
      simp only [if_pos hc, decide_eq_true_eq]
      constructor
      · intro hle
        have hle' : (c : ℝ) ^ 2 * b ≤ (a : ℝ) ^ 2 * d := by exact_mod_cast hle
        by_contra hcon
        push_neg at hcon
        have hdiff : (0 : ℝ) < (a : ℝ) * Real.sqrt d - (c : ℝ) * Real.sqrt b := by linarith
        have hsum : (0 : ℝ) < -((a : ℝ) * Real.sqrt d + (c : ℝ) * Real.sqrt b) := by linarith
        nlinarith [mul_pos hdiff hsum]
      · intro h
        have step : (-(c : ℝ) * Real.sqrt b) * (-(c : ℝ) * Real.sqrt b) ≤
            (-(a : ℝ) * Real.sqrt d) * (-(a : ℝ) * Real.sqrt d) :=
          mul_self_le_mul_self (by linarith) (by linarith)
        have key : (c : ℝ) ^ 2 * b ≤ (a : ℝ) ^ 2 * d := by nlinarith [step]
        exact_mod_cast key
    · push_neg at hc
      have hc' : (0 : ℝ) ≤ (c : ℝ) := by exact_mod_cast hc
      simp only [if_neg (not_lt.mpr hc)]
      constructor
      · intro _
        have h1 : (a : ℝ) * Real.sqrt d ≤ 0 := mul_nonpos_of_nonpos_of_nonneg ha' hsd.le
        have h2 : (0 : ℝ) ≤ (c : ℝ) * Real.sqrt b := mul_nonneg hc' hsb.le
        exact le_trans h1 h2
      · intro _
        trivial

theorem scoreLeB_total (x y : Score) : scoreLeB x y = true ∨ scoreLeB y x = true := by
  rcases le_total (Score.toReal x) (Score.toReal y) with h | h
  · exact Or.inl ((scoreLeB_iff x y).mpr h)
  · exact Or.inr ((scoreLeB_iff y x).mpr h)

theorem scoreLeB_trans {x y z : Score} (h1 : scoreLeB x y = true) (h2 : scoreLeB y z = true) :
    scoreLeB x z = true :=
  (scoreLeB_iff x z).mpr (le_trans ((scoreLeB_iff x y).mp h1) ((scoreLeB_iff y z).mp h2))

/-! ### Python dictionaries

`dset` is Python dictionary assignment `d[k] = v` on an insertion-ordered
association list: an existing key keeps its position and gets the new value,
a fresh key is appended.  `dget` is lookup. -/

/-- Python `d[k] = v` on an insertion-ordered association list. -/
def dset {β : Type} (l : List (String × β)) (k : String) (v : β) : List (String × β) :=
  if l.any (fun p => p.1 == k) then l.map (fun p => if p.1 == k then (k, v) else p)
  else l ++ [(k, v)]

/-- Python `d.get(k)` on an association list. -/
def dget {β : Type} (l : List (String × β)) (k : String) : Option β :=
  (l.find? (fun p => p.1 == k)).map Prod.snd

/-- Metadata dictionaries: string keys to string values. -/
abbrev Meta := List (String × String)

/-- The `'id'` field of a metadata entry (`meta['id']`; `""` if absent,
which well-formed stores never produce). -/
def idOf (m : Meta) : String := (dget m "id").getD ""

/-- A metadata filter value: a single value or a list of admissible values. -/
inductive FVal
  | one : String → FVal
  | many : List String → FVal
deriving DecidableEq

/-- Filters are key/value requirements. -/
abbrev MFilter := List (String × FVal)

/-- `VectorStore._matches_filter`: every filter key must be present and its
value equal to (or, for list filters, a member of) the filter value. -/
def matches_filter (meta : Meta) (flt : MFilter) : Bool :=
  flt.all (fun p =>
    match dget meta p.1 with
    | none => false
    | some v =>
      match p.2 with
      | FVal.one w => v == w
      | FVal.many ws => ws.contains v)

/-! ### The vector store state -/

/-- In-memory state of `VectorStore`: the `(n, d)` vector matrix (or `None`),
the metadata list, the id to row-index dictionary, and the established
dimension. -/
structure VectorStore where
  vectors : Option (List Vec)
  metadata : List Meta
  index : List (String × ℕ)
  dimension : Option ℕ
deriving DecidableEq

/-- A fresh store (`__init__` before any data is loaded). -/
def VectorStore.emptyStore : VectorStore := ⟨none, [], [], none⟩

/-- Number of stored vector rows (`len(self.vectors)`, 0 when `None`). -/
def VectorStore.vlen (st : VectorStore) : ℕ := (st.vectors.getD []).length

/-- Timestamp-and-id stamping of one metadata entry inside `add_vectors`:
`meta_with_timestamp['added_at'] = now; meta_with_timestamp['id'] = vid`. -/
def stamp (now : String) (p : Meta × String) : Meta :=
  dset (dset p.1 "added_at" now) "id" p.2

/-- The `for i, (meta, vector_id) in enumerate(zip(metadata, ids))` loop of
`add_vectors`: appends each stamped entry and records
`index[vector_id] = len(metadata) - 1`. -/
def addLoop (now : String) : VectorStore → List (Meta × String) → VectorStore
  | st, [] => st
  | st, p :: rest =>
    addLoop now
      { st with
        metadata := st.metadata ++ [stamp now p],
        index := dset st.index p.2 st.metadata.length }
      rest

/-- `VectorStore.add_vectors`.  Mirrors the source order: the count check,
then matrix initialisation or dimension check plus `vstack`, then id
generation (`"verse_<n>"` starting at `len(self.metadata)`), then the
stamping loop over `zip(metadata, ids)`.  Raising is modelled by
`Except.error` carrying the message and the state at the raise. -/
def VectorStore.add_vectors (st : VectorStore) (vecs : List Vec) (d : ℕ)
    (metas : List Meta) (ids : Option (List String)) (now : String) :
    Except (String × VectorStore) (VectorStore × List String) :=
  if vecs.length ≠ metas.length then
    Except.error ("Number of vectors must match number of metadata entries", st)
  else
    match st.vectors with
    | none =>
      let st1 := { st with vectors := some vecs, dimension := some d }
      let ids' := match ids with
        | some l => l
        | none => (List.range vecs.length).map (fun i => "verse_" ++ toString (st.metadata.length + i))
      let pairs := metas.zip ids'
      Except.ok (addLoop now st1 pairs, pairs.map Prod.snd)
    | some cur =>
      if some d ≠ st.dimension then
        Except.error ("Vector dimension mismatch", st)
      else
        let st1 := { st with vectors := some (cur ++ vecs) }
        let ids' := match ids with
          | some l => l
          | none => (List.range vecs.length).map (fun i => "verse_" ++ toString (st.metadata.length + i))
        let pairs := metas.zip ids'
        Except.ok (addLoop now st1 pairs, pairs.map Prod.snd)

/-- Per-row similarity values of `search`: valid rows (positive norm) get the
cosine `dot/(‖v‖‖q‖) = dot/√(normSq v · normSq q)`, zero-norm rows keep the
pre-filled `0` of `np.zeros` (`mkScore` falls back to exact `0` when the
radicand is not positive). -/
def simScores (vecs : List Vec) (q : Vec) : List Score :=
  vecs.map (fun v => mkScore (dot v q) (normSq v * normSq q))

/-- Descending order on `(row, score)` pairs used by
`valid_similarities.sort(key=lambda x: x[1], reverse=True)`; insertion sort
with this relation is exactly Python's stable descending sort. -/
def pairRel (a b : ℕ × Score) : Prop := scoreLeB b.2 a.2 = true

instance : DecidableRel pairRel := fun _ _ => instDecidableEqBool _ _

/-- The candidate rows of `search`: metadata positions whose similarity
passes `min_similarity` and whose metadata passes the filter, in insertion
order. -/
def searchCandidates (st : VectorStore) (q : Vec) (min_similarity : ℚ)
    (flt : Option MFilter) : List ℕ :=
  (List.range st.metadata.length).filter (fun i =>
    scoreLeB (mkScore min_similarity 1) ((simScores (st.vectors.getD []) q).getD i (mkScore 0 1)) &&
    (match flt with
     | none => true
     | some f => matches_filter (st.metadata.getD i []) f))

/-- `VectorStore.search`: early returns for an empty store, a zero-norm
query, and an all-zero-norm matrix; then threshold/filter selection, stable
descending sort by similarity, truncation to `top_k`, and projection to
`(id, metadata, score)` triples. -/
def VectorStore.search (st : VectorStore) (q : Vec) (top_k : ℕ)
    (min_similarity : ℚ) (flt : Option MFilter) : List (String × Meta × Score) :=
  match st.vectors with
  | none => []
  | some vecs =>
    if vecs.length = 0 then []
    else if normSq q = 0 then []
    else if vecs.all (fun v => decide (normSq v = 0)) then []
    else
      let sims := simScores vecs q
      let valid := searchCandidates st q min_similarity flt
      if valid.length = 0 then []
      else
        let pairs := valid.map (fun i => (i, sims.getD i (mkScore 0 1)))
        let sorted := List.insertionSort pairRel pairs
        (sorted.take top_k).map (fun p =>
          (idOf (st.metadata.getD p.1 []), st.metadata.getD p.1 [], p.2))

/-- `VectorStore.delete`: unknown ids return `False`; otherwise the row is
removed from the matrix and the metadata list and the id index is rebuilt
from scratch (`self.index[meta['id']] = i`). -/
def VectorStore.delete (st : VectorStore) (vid : String) : VectorStore × Bool :=
  match dget st.index vid with
  | none => (st, false)
  | some i =>
    let newMetadata := st.metadata.eraseIdx i
    let newIndex :=
      (newMetadata.foldl (fun acc m => (dset acc.1 (idOf m) acc.2, acc.2 + 1))
        (([] : List (String × ℕ)), 0)).1
    ({ st with
        vectors := st.vectors.map (fun cur => cur.eraseIdx i),
        metadata := newMetadata,
        index := newIndex }, true)

/-- `VectorStore.clear`: resets all four fields. -/
def VectorStore.clear (_st : VectorStore) : VectorStore := ⟨none, [], [], none⟩

/-- `VectorStore.load`: each artifact that is present on disk replaces the
corresponding in-memory field, independently of the others; `vecFileDim` is
the column count of the stored matrix.  No cross-artifact validation is
performed, and the catch-all `except` means the method never raises. -/
def VectorStore.load (st : VectorStore) (vecFile : Option (List Vec)) (vecFileDim : ℕ)
    (metaFile : Option (List Meta)) (idxFile : Option (List (String × ℕ))) :
    VectorStore × Bool :=
  let st1 := match vecFile with
    | none => st
    | some vs =>
      { st with vectors := some vs,
                dimension := if 0 < vs.length then some vecFileDim else none }
  let st2 := match metaFile with
    | none => st1
    | some ms => { st1 with metadata := ms }
  let st3 := match idxFile with
    | none => st2
    | some ix => { st2 with index := ix }
  (st3, true)

/-! ### The store invariant -/

/-- `buildIndexFrom n ms`: the id to row-index dictionary obtained by
enumerating `ms` starting at position `n`. -/
def buildIndexFrom (n : ℕ) : List Meta → List (String × ℕ)
  | [] => []
  | m :: ms => (idOf m, n) :: buildIndexFrom (n + 1) ms

/-- Well-formedness of a store: the metadata list is aligned with the vector
matrix, metadata ids are pairwise distinct, and the index dictionary is
exactly the id to position mapping of the metadata list. -/
def WF (st : VectorStore) : Prop :=
  st.metadata.length = st.vlen ∧
  (st.metadata.map idOf).Nodup ∧
  st.index = buildIndexFrom 0 st.metadata

/-! ### Verse retrieval (`verse_service.py`)

`search_verses_by_theme` delegates to
`embedding_service.find_similar_verses`; that call either raises or returns
a scored list, modelled by an `Except` argument.  The per-verse conversion
(attaching `similarity_score` and `chapter_info`) is abstracted by `conv`,
since the claims only concern the error/empty control flow. -/

/-- `VerseService.search_verses_by_theme`: empty theme returns `[]`; an
exception from the semantic path is swallowed and reaches the trailing
`return []`; a non-empty semantic result is converted and returned; an empty
semantic result also falls through to the trailing `return []`. -/
def search_verses_by_theme {V : Type} (theme : String)
    (sem : Except String (List (V × ℚ))) (conv : V → ℚ → V) : List V :=
  if theme.isEmpty then []
  else
    match sem with
    | Except.error _ => []
    | Except.ok similar =>
      if similar.isEmpty then [] else similar.map (fun p => conv p.1 p.2)

/-- A passage as the spec's fallback describes it: primary text, optional
translation, and the containing chapter's name. -/
structure Passage where
  text : String
  translation : String
  chapter_name : String
deriving DecidableEq

/-- Lowercasing as a character-list operation (`str.lower()`). -/
def lowerL (s : String) : List Char := s.toList.map Char.toLower

/-- Case-insensitive substring test (Python `needle in hay` on lowercased
strings). -/
def substrB (needle hay : String) : Bool :=
  decide (List.IsInfix (lowerL needle) (lowerL hay))

/-- Modelled from the spec (section 4.3, step 3): the claimed deterministic
fallback — a passage matches when the lowercased theme is a substring of the
lowercased passage text, translation, or chapter name; source order is kept
and the list is truncated to `max_results`.  No such code exists in
`search_verses_by_theme`, which returns `[]` instead; this definition exists
only to compare the claim against the code. -/
def specFallbackSearch (passages : List Passage) (theme : String)
    (max_results : ℕ) : List Passage :=
  (passages.filter (fun p =>
    substrB theme p.text || substrB theme p.translation ||
      substrB theme p.chapter_name)).take max_results

/-! ### Chapter aggregation scoring (`search_chapters_by_theme`) -/

/-- The per-chapter accumulator of `search_chapters_by_theme`:
`total_similarity`, `max_similarity`, `verse_count`, `contextual_score`,
`themes_found`. -/
structure ChapterAgg where
  total_similarity : ℚ
  max_similarity : ℚ
  verse_count : ℕ
  contextual_score : ℚ
  themes_found : Finset String
deriving DecidableEq

/-- Folds the per-verse updates of the aggregation loop: each processed
verse contributes its adjusted similarity (sum and max), a count of one,
its contextual score, and its extracted themes (set union). -/
def aggregate (entries : List (ℚ × ℚ × List String)) : ChapterAgg :=
  entries.foldl
    (fun acc e =>
      { total_similarity := acc.total_similarity + e.1,
        max_similarity := max acc.max_similarity e.1,
        verse_count := acc.verse_count + 1,
        contextual_score := acc.contextual_score + e.2.1,
        themes_found := acc.themes_found ∪ e.2.2.toFinset })
    ⟨0, 0, 0, 0, ∅⟩

/-- The composite chapter score of `search_chapters_by_theme` (only reached
when `verse_count > 0`): `avg_similarity * 0.4 + max_similarity * 0.3 +
verse_density * 0.15 + avg_contextual * 0.1 +
min(theme_diversity * 0.05, 0.05)`, with
`verse_density = min(verse_count / number_of_verses, 1.0)` (0 when
`number_of_verses` is 0). -/
def composite_score (agg : ChapterAgg) (number_of_verses : ℕ) : ℚ :=
  let avg_similarity := agg.total_similarity / (agg.verse_count : ℚ)
  let verse_density : ℚ :=
    if 0 < number_of_verses then
      min ((agg.verse_count : ℚ) / (number_of_verses : ℚ)) 1
    else 0
  let avg_contextual := agg.contextual_score / (agg.verse_count : ℚ)
  let theme_diversity : ℚ := (agg.themes_found.card : ℚ)
  avg_similarity * 0.4 + agg.max_similarity * 0.3 + verse_density * 0.15 +
    avg_contextual * 0.1 + min (theme_diversity * 0.05) 0.05

/-- Modelled from the spec (section 4.4, step 6): the claimed formula, whose
last addend is `0.05 * min(theme_diversity * 0.05, 0.05)` — an extra factor
`0.05` relative to the code.  This definition exists only to compare the
claim against the code. -/
def composite_score_claimed (agg : ChapterAgg) (number_of_verses : ℕ) : ℚ :=
  let avg_similarity := agg.total_similarity / (agg.verse_count : ℚ)
  let verse_density : ℚ :=
    if 0 < number_of_verses then
      min ((agg.verse_count : ℚ) / (number_of_verses : ℚ)) 1
    else 0
  let avg_contextual := agg.contextual_score / (agg.verse_count : ℚ)
  let theme_diversity : ℚ := (agg.themes_found.card : ℚ)
  0.4 * avg_similarity + 0.3 * agg.max_similarity + 0.15 * verse_density +
    0.10 * avg_contextual + 0.05 * min (theme_diversity * 0.05) 0.05

/-! ### Wellness category detection (`wellness_service.py`) -/

/-- One wellness category: its id, theme phrases, and keywords (display
fields are irrelevant to detection). -/
structure WCategory where
  id : String
  themes : List String
  keywords : List String

/-- The static taxonomy of `_initialize_wellness_categories`, in dictionary
insertion order. -/
def wellnessCategories : List WCategory :=
  [⟨"anxiety_stress",
    ["peace and tranquility", "trust in Allah", "patience in hardship",
     "relief from anxiety", "comfort in distress", "divine protection",
     "inner peace", "calm heart", "serenity", "trust and reliance"],
    ["peace", "tranquility", "patience", "trust", "comfort", "protection", "calm"]⟩,
   ⟨"depression_sadness",
    ["hope and optimism", "divine mercy", "healing and recovery",
     "light after darkness", "comfort in grief", "spiritual strength",
     "renewal of faith", "divine compassion", "overcoming despair"],
    ["hope", "mercy", "healing", "light", "comfort", "strength", "compassion"]⟩,
   ⟨"self_worth",
    ["human dignity", "purpose of creation", "divine love for humanity",
     "individual worth", "spiritual potential", "noble character",
     "self-respect", "confidence in faith", "personal growth"],
    ["dignity", "purpose", "creation", "worth", "potential", "character", "growth"]⟩,
   ⟨"relationships",
    ["kindness and compassion", "forgiveness in relationships", "family bonds",
     "friendship and brotherhood", "community support", "social justice",
     "treating others well", "empathy and understanding", "conflict resolution"],
    ["kindness", "forgiveness", "family", "friendship", "community", "justice", "empathy"]⟩,
   ⟨"grief_loss",
    ["comfort in loss", "eternal life", "divine wisdom in trials",
     "patience in grief", "reunion in afterlife", "acceptance of fate",
     "strength through faith", "healing from loss", "divine decree"],
    ["comfort", "eternal", "trials", "patience", "reunion", "acceptance", "healing"]⟩,
   ⟨"anger_management",
    ["controlling anger", "patience and forbearance", "forgiveness over revenge",
     "emotional balance", "gentle response", "wisdom in conflict",
     "self-control", "peaceful resolution", "restraint and moderation"],
    ["anger", "patience", "forgiveness", "balance", "control", "peace", "restraint"]⟩,
   ⟨"gratitude_contentment",
    ["gratitude and thankfulness", "contentment with provisions", "counting blessings",
     "satisfaction with fate", "appreciation of life", "spiritual wealth",
     "inner richness", "divine generosity", "thankful heart"],
    ["gratitude", "thankfulness", "contentment", "blessings", "satisfaction", "wealth"]⟩,
   ⟨"fear_worry",
    ["overcoming fear", "trust in divine plan", "courage and bravery",
     "protection from harm", "faith over fear", "divine guidance",
     "strength in weakness", "confidence in Allah", "fearlessness"],
    ["fear", "trust", "courage", "protection", "guidance", "strength", "confidence"]⟩,
   ⟨"spiritual_growth",
    ["spiritual development", "closeness to Allah", "purification of soul",
     "remembrance of Allah", "spiritual discipline", "inner transformation",
     "divine connection", "spiritual enlightenment", "soul purification"],
    ["spiritual", "closeness", "purification", "remembrance", "transformation", "connection"]⟩,
   ⟨"life_purpose",
    ["purpose of life", "meaning and significance", "divine mission",
     "life goals", "spiritual purpose", "worldly and eternal success",
     "fulfilling potential", "serving humanity", "worship and service"],
    ["purpose", "meaning", "mission", "goals", "success", "potential", "service"]⟩]

/-- Raw substring containment (Python `needle in hay`) on character lists. -/
def containsSub (needle hay : List Char) : Bool :=
  decide (List.IsInfix needle hay)

/-- Python `str.split()` on a character list: splits on space runs and
drops empty words (the theme phrases contain no other whitespace). -/
def wordsAux : List Char → List Char → List (List Char)
  | [], cur => if cur.isEmpty then [] else [cur.reverse]
  | c :: rest, cur =>
    if c = ' ' then
      (if cur.isEmpty then wordsAux rest [] else cur.reverse :: wordsAux rest [])
    else wordsAux rest (c :: cur)

/-- The words of a character list. -/
def wordsOf (l : List Char) : List (List Char) := wordsAux l []

/-- The relevance score of one category against the lowercased input text:
`+2` per keyword occurring in the text, `+1` per theme-phrase word of length
`> 3` occurring in the text. -/
def relevanceScore (cat : WCategory) (textLower : List Char) : ℕ :=
  2 * (cat.keywords.filter (fun k => containsSub k.toList textLower)).length +
    (cat.themes.map (fun theme =>
      ((wordsOf (lowerL theme)).filter
        (fun w => decide (3 < w.length) && containsSub w textLower)).length)).sum

/-- Descending order on `(category, score)` rows used by
`detected.sort(key=lambda x: x["relevance_score"], reverse=True)`. -/
def catRel (a b : String × ℕ) : Prop := b.2 ≤ a.2

instance : DecidableRel catRel := fun a b => Nat.decLe b.2 a.2

/-- `WellnessService._detect_wellness_categories`: score every category
against the lowercased input, keep only positive scores, sort descending
(stably) by score, return the top 3 as `(id, relevance_score)` rows. -/
def detect_wellness_categories (user_input : String) : List (String × ℕ) :=
  let lower := lowerL user_input
  let detected :=
    (wellnessCategories.map (fun c => (c.id, relevanceScore c lower))).filter
      (fun p => decide (0 < p.2))
  (List.insertionSort catRel detected).take 3

/-! ### The claimed search pipeline (spec section 4.2)

Stated from the spec's words: results are the stored entries whose score
passes `min_similarity` and the filter (in insertion order), sorted
descending by score with ties in original order (a stable sort), truncated
to `top_k`. -/

/-- The `(id, metadata, score)` triple of row `i`. -/
def entryOf (st : VectorStore) (q : Vec) (i : ℕ) : String × Meta × Score :=
  (idOf (st.metadata.getD i []), st.metadata.getD i [],
    (simScores (st.vectors.getD []) q).getD i (mkScore 0 1))

/-- Descending score order on result entries. -/
def entryRel (a b : String × Meta × Score) : Prop := scoreLeB b.2.2 a.2.2 = true

instance : DecidableRel entryRel := fun _ _ => instDecidableEqBool _ _

instance : IsTotal (String × Meta × Score) entryRel :=
  ⟨fun a b => scoreLeB_total b.2.2 a.2.2⟩

instance : IsTrans (String × Meta × Score) entryRel :=
  ⟨fun _ _ _ h1 h2 => scoreLeB_trans h2 h1⟩

instance : IsTotal (ℕ × Score) pairRel :=
  ⟨fun a b => scoreLeB_total b.2 a.2⟩

instance : IsTrans (ℕ × Score) pairRel :=
  ⟨fun _ _ _ h1 h2 => scoreLeB_trans h2 h1⟩

/-- Modelled from the spec (section 4.2, `search`): filter the stored
entries by threshold and metadata filter in insertion order, stable-sort
descending by score, truncate to `top_k`. -/
def claimSearch (st : VectorStore) (q : Vec) (top_k : ℕ) (min_similarity : ℚ)
    (flt : Option MFilter) : List (String × Meta × Score) :=
  (List.insertionSort entryRel
    ((searchCandidates st q min_similarity flt).map (entryOf st q))).take top_k

/-! ### Dictionary lemmas -/

theorem dget_cons_hit {β : Type} {p : String × β} {rest : List (String × β)} {k : String}
    (h : (p.1 == k) = true) : dget (p :: rest) k = some p.2 := by
  simp [dget, List.find?, h]

theorem dget_cons_miss {β : Type} {p : String × β} {rest : List (String × β)} {k : String}
    (h : (p.1 == k) = false) : dget (p :: rest) k = dget rest k := by
  simp [dget, List.find?, h]

theorem dget_eq_none_iff {β : Type} (l : List (String × β)) (k : String) :
    dget l k = none ↔ k ∉ l.map Prod.fst := by
  induction l with
  | nil => simp [dget]
  | cons p rest ih =>
    by_cases h : p.1 = k
    · rw [dget_cons_hit (beq_iff_eq.mpr h)]
      simp [h]
    · rw [dget_cons_miss (beq_eq_false_iff_ne.mpr h)]
      rw [ih]
      simp only [List.map_cons, List.mem_cons]
      constructor
      · intro hnm hc
        rcases hc with hc | hc
        · exact h hc.symm
        · exact hnm hc
      · intro hnm hc
        exact hnm (Or.inr hc)

theorem dget_append_of_none {β : Type} {l l' : List (String × β)} {k : String}
    (h : dget l k = none) : dget (l ++ l') k = dget l' k := by
  induction l with
  | nil => simp
  | cons p rest ih =>
    have hp : (p.1 == k) = false := by
      by_contra hc
      simp only [Bool.not_eq_false] at hc
      rw [dget_cons_hit hc] at h
      exact Option.noConfusion h
    rw [List.cons_append, dget_cons_miss hp]
    exact ih (by rwa [dget_cons_miss hp] at h)

theorem dset_fresh {β : Type} (l : List (String × β)) (k : String) (v : β)
    (h : dget l k = none) : dset l k v = l ++ [(k, v)] := by
  have hk : k ∉ l.map Prod.fst := (dget_eq_none_iff l k).mp h
  have hany : l.any (fun p => p.1 == k) = false := by
    rw [List.any_eq_false]
    intro p hp
    have hne : p.1 ≠ k := fun hc => hk (by
      simpa [hc] using List.mem_map_of_mem Prod.fst hp)
    simpa using hne
  simp [dset, hany]

theorem dget_map_hit {β : Type} {k : String} {v : β} :
    ∀ (l : List (String × β)), l.any (fun p => p.1 == k) = true →
      dget (l.map (fun p => if p.1 == k then (k, v) else p)) k = some v
  | [], h => by simp at h
  | p :: rest, h => by
    by_cases hp : (p.1 == k) = true
    · rw [List.map_cons, if_pos hp, dget_cons_hit (beq_self_eq_true k)]
    · have hp' : (p.1 == k) = false := by
        simpa using hp
      rw [List.map_cons, if_neg (by simp [hp'])]
      rw [dget_cons_miss hp']
      have hrest : rest.any (fun p => p.1 == k) = true := by
        simpa [List.any_cons, hp'] using h
      exact dget_map_hit rest hrest

theorem dget_dset_self {β : Type} (l : List (String × β)) (k : String) (v : β) :
    dget (dset l k v) k = some v := by
  unfold dset
  by_cases hany : l.any (fun p => p.1 == k) = true
  · rw [if_pos hany]
    exact dget_map_hit l hany
  · have hany' : l.any (fun p => p.1 == k) = false := Bool.eq_false_iff.mpr hany
    rw [hany']
    simp only [Bool.false_eq_true, if_false]
    have hnone : dget l k = none := by
      rw [dget_eq_none_iff]
      intro hc
      rcases List.mem_map.mp hc with ⟨p, hp, hpk⟩
      rw [List.any_eq_false] at hany'
      exact absurd (by simpa using hpk) (by simpa using hany' p hp)
    rw [dget_append_of_none hnone, dget_cons_hit (beq_self_eq_true k)]

theorem idOf_stamp (now : String) (p : Meta × String) : idOf (stamp now p) = p.2 := by
  simp [idOf, stamp, dget_dset_self]

/-! ### Index construction lemmas -/

theorem buildIndexFrom_append : ∀ (n : ℕ) (ms ms' : List Meta),
    buildIndexFrom n (ms ++ ms') =
      buildIndexFrom n ms ++ buildIndexFrom (n + ms.length) ms'
  | n, [], ms' => by simp [buildIndexFrom]
  | n, m :: rest, ms' => by
    have harg : n + 1 + rest.length = n + (rest.length + 1) := by omega
    show buildIndexFrom n (m :: (rest ++ ms')) = _
    rw [buildIndexFrom, buildIndexFrom, buildIndexFrom_append (n + 1) rest ms',
      List.cons_append]
    simp only [List.length_cons, harg]

theorem buildIndexFrom_keys (n : ℕ) (ms : List Meta) :
    (buildIndexFrom n ms).map Prod.fst = ms.map idOf := by
  induction ms generalizing n with
  | nil => rfl
  | cons m rest ih => simp [buildIndexFrom, ih]

theorem buildIndexFrom_snd_lt (n : ℕ) (ms : List Meta) :
    ∀ p ∈ buildIndexFrom n ms, p.2 < n + ms.length := by
  induction ms generalizing n with
  | nil => simp [buildIndexFrom]
  | cons m rest ih =>
    intro p hp
    simp only [buildIndexFrom, List.mem_cons] at hp
    rcases hp with hp | hp
    · subst hp
      simp only [List.length_cons]
      omega
    · have := ih (n + 1) p hp
      simp only [List.length_cons]
      omega

theorem dget_buildIndexFrom_none (n : ℕ) (ms : List Meta) (k : String)
    (h : k ∉ ms.map idOf) : dget (buildIndexFrom n ms) k = none := by
  rw [dget_eq_none_iff, buildIndexFrom_keys]
  exact h

/-! ### `addLoop` lemmas -/

theorem addLoop_metadata (now : String) :
    ∀ (ps : List (Meta × String)) (st : VectorStore),
      (addLoop now st ps).metadata = st.metadata ++ ps.map (stamp now)
  | [], st => by simp [addLoop]
  | p :: rest, st => by
    simp only [addLoop, addLoop_metadata now rest, List.map_cons]
    simp

theorem addLoop_vectors (now : String) :
    ∀ (ps : List (Meta × String)) (st : VectorStore),
      (addLoop now st ps).vectors = st.vectors
  | [], _ => rfl
  | p :: rest, st => by
    simp only [addLoop, addLoop_vectors now rest]

theorem addLoop_dimension (now : String) :
    ∀ (ps : List (Meta × String)) (st : VectorStore),
      (addLoop now st ps).dimension = st.dimension
  | [], _ => rfl
  | p :: rest, st => by
    simp only [addLoop, addLoop_dimension now rest]

theorem addLoop_index (now : String) :
    ∀ (ps : List (Meta × String)) (st : VectorStore),
      (ps.map Prod.snd).Nodup →
      (∀ s ∈ ps.map Prod.snd, dget st.index s = none) →
      (addLoop now st ps).index =
        st.index ++ buildIndexFrom st.metadata.length (ps.map (stamp now))
  | [], st, _, _ => by simp [addLoop, buildIndexFrom]
  | p :: rest, st, hnd, hfresh => by
    have hfresh_p : dget st.index p.2 = none := hfresh p.2 (by simp)
    have hset : dset st.index p.2 st.metadata.length =
        st.index ++ [(p.2, st.metadata.length)] :=
      dset_fresh _ _ _ hfresh_p
    have hnd0 : (p.2 :: rest.map Prod.snd).Nodup := by simpa using hnd
    have hp_notin : p.2 ∉ rest.map Prod.snd := (List.nodup_cons.mp hnd0).1
    have hnd' : (rest.map Prod.snd).Nodup := (List.nodup_cons.mp hnd0).2
    have hfresh' : ∀ s ∈ rest.map Prod.snd,
        dget (dset st.index p.2 st.metadata.length) s = none := by
      intro s hs
      rw [hset, dget_eq_none_iff]
      simp only [List.map_append, List.mem_append]
      rintro (hc | hc)
      · have := hfresh s (by simp [hs])
        rw [dget_eq_none_iff] at this
        exact this hc
      · simp only [List.map_cons, List.map_nil, List.mem_singleton] at hc
        exact hp_notin (hc ▸ hs)
    show (addLoop now
        { st with
          metadata := st.metadata ++ [stamp now p],
          index := dset st.index p.2 st.metadata.length } rest).index = _
    rw [addLoop_index now rest _ hnd' hfresh']
    simp only [hset, List.length_append, List.length_cons, List.length_nil,
      List.map_cons, List.append_assoc, List.singleton_append]
    rw [show st.metadata.length + (0 + 1) = st.metadata.length + 1 from by omega]
    rw [show buildIndexFrom st.metadata.length (stamp now p :: List.map (stamp now) rest) =
      (idOf (stamp now p), st.metadata.length) ::
        buildIndexFrom (st.metadata.length + 1) (List.map (stamp now) rest) from rfl]
    rw [idOf_stamp]

/-! ### Delete rebuild and `add_vectors` characterisation -/

theorem rebuild_fold : ∀ (ms : List Meta) (acc : List (String × ℕ)) (n : ℕ),
    (ms.map idOf).Nodup →
    (∀ m ∈ ms, dget acc (idOf m) = none) →
    (ms.foldl (fun acc m => (dset acc.1 (idOf m) acc.2, acc.2 + 1)) (acc, n)).1 =
      acc ++ buildIndexFrom n ms
  | [], acc, n, _, _ => by simp [buildIndexFrom]
  | m :: rest, acc, n, hnd, hfresh => by
    have hnd0 : (idOf m :: rest.map idOf).Nodup := by simpa using hnd
    have hm_notin : idOf m ∉ rest.map idOf := (List.nodup_cons.mp hnd0).1
    have hnd' : (rest.map idOf).Nodup := (List.nodup_cons.mp hnd0).2
    have hset : dset acc (idOf m) n = acc ++ [(idOf m, n)] :=
      dset_fresh _ _ _ (hfresh m (by simp))
    have hfresh' : ∀ m' ∈ rest, dget (dset acc (idOf m) n) (idOf m') = none := by
      intro m' hm'
      rw [hset, dget_eq_none_iff]
      simp only [List.map_append, List.mem_append]
      rintro (hc | hc)
      · have := hfresh m' (List.mem_cons_of_mem m hm')
        rw [dget_eq_none_iff] at this
        exact this hc
      · simp only [List.map_cons, List.map_nil, List.mem_singleton] at hc
        exact hm_notin (hc ▸ List.mem_map_of_mem idOf hm')
    show (rest.foldl (fun acc m => (dset acc.1 (idOf m) acc.2, acc.2 + 1))
        (dset acc (idOf m) n, n + 1)).1 = _
    rw [rebuild_fold rest _ (n + 1) hnd' hfresh', hset, List.append_assoc]
    rfl

/-- The generated ids of `add_vectors` when `ids` is omitted. -/
def genIds (st : VectorStore) (n : ℕ) : List String :=
  (List.range n).map (fun i => "verse_" ++ toString (st.metadata.length + i))

theorem add_vectors_ok {st : VectorStore} {vecs : List Vec} {d : ℕ} {metas : List Meta}
    {ids : Option (List String)} {now : String} {st' : VectorStore} {out : List String}
    (h : st.add_vectors vecs d metas ids now = Except.ok (st', out)) :
    vecs.length = metas.length ∧
    ∃ dim', st' = addLoop now
        { st with vectors := some (st.vectors.getD [] ++ vecs), dimension := dim' }
        (metas.zip (ids.getD (genIds st vecs.length))) ∧
      out = (metas.zip (ids.getD (genIds st vecs.length))).map Prod.snd := by
  cases ids with
  | none =>
    unfold VectorStore.add_vectors at h
    by_cases hlen : vecs.length ≠ metas.length
    · rw [if_pos hlen] at h
      exact absurd h (by simp)
    · rw [if_neg hlen] at h
      push_neg at hlen
      refine ⟨hlen, ?_⟩
      cases hv : st.vectors with
      | none =>
        rw [hv] at h
        dsimp only at h
        simp only [Except.ok.injEq, Prod.mk.injEq] at h
        refine ⟨some d, ?_, ?_⟩
        · rw [← h.1]
          simp [genIds]
        · rw [← h.2]
          simp [genIds]
      | some cur =>
        rw [hv] at h
        dsimp only at h
        by_cases hdim : some d ≠ st.dimension
        · rw [if_pos hdim] at h
          exact absurd h (by simp)
        · rw [if_neg hdim] at h
          simp only [Except.ok.injEq, Prod.mk.injEq] at h
          refine ⟨st.dimension, ?_, ?_⟩
          · rw [← h.1]
            simp [genIds]
          · rw [← h.2]
            simp [genIds]
  | some presetIds =>
    unfold VectorStore.add_vectors at h
    by_cases hlen : vecs.length ≠ metas.length
    · rw [if_pos hlen] at h
      exact absurd h (by simp)
    · rw [if_neg hlen] at h
      push_neg at hlen
      refine ⟨hlen, ?_⟩
      cases hv : st.vectors with
      | none =>
        rw [hv] at h
        dsimp only at h
        simp only [Except.ok.injEq, Prod.mk.injEq] at h
        refine ⟨some d, ?_, ?_⟩
        · rw [← h.1]
          simp [genIds]
        · rw [← h.2]
          simp [genIds]
      | some cur =>
        rw [hv] at h
        dsimp only at h
        by_cases hdim : some d ≠ st.dimension
        · rw [if_pos hdim] at h
          exact absurd h (by simp)
        · rw [if_neg hdim] at h
          simp only [Except.ok.injEq, Prod.mk.injEq] at h
          refine ⟨st.dimension, ?_, ?_⟩
          · rw [← h.1]
            simp [genIds]
          · rw [← h.2]
            simp [genIds]

/-! ### Invariant preservation lemmas -/

theorem delete_none {st : VectorStore} {vid : String}
    (hd : dget st.index vid = none) : st.delete vid = (st, false) := by
  unfold VectorStore.delete
  rw [hd]

theorem delete_some {st : VectorStore} {vid : String} {i : ℕ}
    (hd : dget st.index vid = some i) :
    st.delete vid =
      ({ st with
          vectors := st.vectors.map (fun cur => cur.eraseIdx i),
          metadata := st.metadata.eraseIdx i,
          index := ((st.metadata.eraseIdx i).foldl
            (fun acc m => (dset acc.1 (idOf m) acc.2, acc.2 + 1))
            (([] : List (String × ℕ)), 0)).1 }, true) := by
  unfold VectorStore.delete
  rw [hd]

theorem WF_add {st : VectorStore} {vecs : List Vec} {d : ℕ} {metas : List Meta}
    {ids : Option (List String)} {now : String} {st' : VectorStore} {out : List String}
    (hwf : WF st)
    (h : st.add_vectors vecs d metas ids now = Except.ok (st', out))
    (hout_len : out.length = vecs.length)
    (hout_nd : out.Nodup)
    (hout_fresh : ∀ s ∈ out, s ∉ st.metadata.map idOf) :
    WF st' := by
  obtain ⟨hlen, dim', hst', hout⟩ := add_vectors_ok h
  obtain ⟨hwf1, hwf2, hwf3⟩ := hwf
  set pairs := metas.zip (ids.getD (genIds st vecs.length)) with hpairs
  have hpairs_snd_nd : (pairs.map Prod.snd).Nodup := hout ▸ hout_nd
  have hpairs_fresh : ∀ s ∈ pairs.map Prod.snd, s ∉ st.metadata.map idOf := by
    intro s hs
    exact hout_fresh s (hout ▸ hs)
  have hpairs_len : pairs.length = vecs.length := by
    rw [hout] at hout_len
    simpa using hout_len
  have hmd : st'.metadata = st.metadata ++ pairs.map (stamp now) := by
    rw [hst']
    exact addLoop_metadata now pairs _
  have hvs : st'.vectors = some (st.vectors.getD [] ++ vecs) := by
    rw [hst']
    exact addLoop_vectors now pairs _
  have hids_new : (pairs.map (stamp now)).map idOf = pairs.map Prod.snd := by
    rw [List.map_map]
    exact List.map_congr_left (fun p _ => idOf_stamp now p)
  have hidx_fresh : ∀ s ∈ pairs.map Prod.snd, dget st.index s = none := by
    intro s hs
    rw [hwf3]
    exact dget_buildIndexFrom_none 0 st.metadata s (hpairs_fresh s hs)
  have hidx : st'.index =
      st.index ++ buildIndexFrom st.metadata.length (pairs.map (stamp now)) := by
    rw [hst']
    exact addLoop_index now pairs _ hpairs_snd_nd hidx_fresh
  refine ⟨?_, ?_, ?_⟩
  · rw [hmd]
    unfold VectorStore.vlen
    rw [hvs]
    simp only [Option.getD_some, List.length_append, List.length_map]
    unfold VectorStore.vlen at hwf1
    omega
  · rw [hmd, List.map_append, hids_new, List.nodup_append]
    refine ⟨hwf2, hpairs_snd_nd, ?_⟩
    intro s hs hs'
    exact hpairs_fresh s hs' hs
  · rw [hidx, hmd, buildIndexFrom_append, hwf3, Nat.zero_add]

theorem dget_some_lt {ms : List Meta} {k : String} {i : ℕ}
    (h : dget (buildIndexFrom 0 ms) k = some i) : i < ms.length := by
  unfold dget at h
  cases hf : (buildIndexFrom 0 ms).find? (fun p => p.1 == k) with
  | none => rw [hf] at h; exact Option.noConfusion h
  | some p =>
    rw [hf] at h
    have hp : p ∈ buildIndexFrom 0 ms := List.mem_of_find?_eq_some hf
    have := buildIndexFrom_snd_lt 0 ms p hp
    have hpi : p.2 = i := by
      have : (Option.map Prod.snd (some p)) = some i := h
      simpa using this
    omega

theorem WF_delete {st : VectorStore} (hwf : WF st) (vid : String) :
    WF (st.delete vid).1 ∧
      ∀ p ∈ (st.delete vid).1.index, p.2 < (st.delete vid).1.metadata.length := by
  obtain ⟨hwf1, hwf2, hwf3⟩ := hwf
  cases hd : dget st.index vid with
  | none =>
    rw [delete_none hd]
    refine ⟨⟨hwf1, hwf2, hwf3⟩, ?_⟩
    intro p hp
    rw [hwf3] at hp
    simpa using buildIndexFrom_snd_lt 0 st.metadata p hp
  | some i =>
    rw [delete_some hd]
    have hi : i < st.metadata.length := dget_some_lt (hwf3 ▸ hd)
    obtain ⟨vs, hv, hvlen⟩ : ∃ vs, st.vectors = some vs ∧ vs.length = st.metadata.length := by
      cases hv : st.vectors with
      | none =>
        unfold VectorStore.vlen at hwf1
        rw [hv] at hwf1
        simp only [Option.getD_none, List.length_nil] at hwf1
        omega
      | some vs =>
        refine ⟨vs, rfl, ?_⟩
        unfold VectorStore.vlen at hwf1
        rw [hv] at hwf1
        simpa using hwf1.symm
    have hnew_nd : ((st.metadata.eraseIdx i).map idOf).Nodup :=
      hwf2.sublist ((List.eraseIdx_sublist st.metadata i).map idOf)
    have hrebuild :
        ((st.metadata.eraseIdx i).foldl
          (fun acc m => (dset acc.1 (idOf m) acc.2, acc.2 + 1))
          (([] : List (String × ℕ)), 0)).1 =
          buildIndexFrom 0 (st.metadata.eraseIdx i) := by
      have := rebuild_fold (st.metadata.eraseIdx i) [] 0 hnew_nd
        (fun m _ => by simp [dget])
      simpa using this
    constructor
    · refine ⟨?_, hnew_nd, ?_⟩
      · unfold VectorStore.vlen
        rw [hv]
        show (st.metadata.eraseIdx i).length = ((some (vs.eraseIdx i)).getD []).length
        simp only [Option.getD_some]
        rw [List.length_eraseIdx_of_lt hi,
          List.length_eraseIdx_of_lt (by omega : i < vs.length)]
        omega
      · simpa using hrebuild
    · intro p hp
      simp only at hp
      rw [hrebuild] at hp
      simpa using buildIndexFrom_snd_lt 0 (st.metadata.eraseIdx i) p hp

theorem WF_clear (st : VectorStore) : WF st.clear :=
  ⟨rfl, List.nodup_nil, rfl⟩

/-! ### Search pipeline lemmas -/

theorem search_eq_main {st : VectorStore} {vecs : List Vec} {q : Vec} {k : ℕ}
    {m : ℚ} {flt : Option MFilter}
    (hv : st.vectors = some vecs) (h1 : ¬ vecs.length = 0) (h2 : ¬ normSq q = 0)
    (h3 : vecs.all (fun v => decide (normSq v = 0)) = false) :
    st.search q k m flt =
      ((List.insertionSort pairRel
        ((searchCandidates st q m flt).map
          (fun i => (i, (simScores vecs q).getD i (mkScore 0 1))))).take k).map
        (fun p => (idOf (st.metadata.getD p.1 []), st.metadata.getD p.1 [], p.2)) := by
  unfold VectorStore.search
  rw [hv]
  dsimp only
  rw [if_neg h1, if_neg h2]
  rw [if_neg (by simp [h3] : ¬ (vecs.all (fun v => decide (normSq v = 0)) = true))]
  by_cases hvalid : (searchCandidates st q m flt).length = 0
  · rw [if_pos hvalid]
    have : searchCandidates st q m flt = [] := List.length_eq_zero.mp hvalid
    rw [this]
    simp [List.insertionSort]
  · rw [if_neg hvalid]

theorem mem_search {st : VectorStore} {q : Vec} {k : ℕ} {m : ℚ}
    {flt : Option MFilter} {e : String × Meta × Score}
    (h : e ∈ st.search q k m flt) :
    ∃ i ∈ searchCandidates st q m flt, e = entryOf st q i := by
  cases hv : st.vectors with
  | none =>
    unfold VectorStore.search at h
    rw [hv] at h
    simp at h
  | some vecs =>
    by_cases h1 : vecs.length = 0
    · unfold VectorStore.search at h
      rw [hv] at h
      dsimp only at h
      rw [if_pos h1] at h
      simp at h
    · by_cases h2 : normSq q = 0
      · unfold VectorStore.search at h
        rw [hv] at h
        dsimp only at h
        rw [if_neg h1, if_pos h2] at h
        simp at h
      · by_cases h3 : vecs.all (fun v => decide (normSq v = 0)) = true
        · unfold VectorStore.search at h
          rw [hv] at h
          dsimp only at h
          rw [if_neg h1, if_neg h2, if_pos h3] at h
          simp at h
        · rw [search_eq_main hv h1 h2 (Bool.eq_false_iff.mpr h3)] at h
          rcases List.mem_map.mp h with ⟨p, hp, he⟩
          have hp' : p ∈ List.insertionSort pairRel
              ((searchCandidates st q m flt).map
                (fun i => (i, (simScores vecs q).getD i (mkScore 0 1)))) :=
            List.take_subset k _ hp
          have hp'' : p ∈ (searchCandidates st q m flt).map
              (fun i => (i, (simScores vecs q).getD i (mkScore 0 1))) :=
            (List.perm_insertionSort pairRel _).mem_iff.mp hp'
          rcases List.mem_map.mp hp'' with ⟨i, hi, hpi⟩
          refine ⟨i, hi, ?_⟩
          rw [← he, ← hpi]
          unfold entryOf
          rw [hv]
          rfl

theorem searchCandidates_mem_range {st : VectorStore} {q : Vec} {m : ℚ}
    {flt : Option MFilter} {i : ℕ} (h : i ∈ searchCandidates st q m flt) :
    i < st.metadata.length ∧
      scoreLeB (mkScore m 1)
        ((simScores (st.vectors.getD []) q).getD i (mkScore 0 1)) = true := by
  unfold searchCandidates at h
  rcases List.mem_filter.mp h with ⟨hr, hcond⟩
  refine ⟨List.mem_range.mp hr, ?_⟩
  simp only [Bool.and_eq_true] at hcond
  exact hcond.1

/-! ### Concrete fixtures -/

/-- A store holding one zero-norm row (id "a") and one unit row (id "b"). -/
def stA : VectorStore :=
  ⟨some [[0, 0], [1, 0]], [[("id", "a")], [("id", "b")]],
    [("a", 0), ("b", 1)], some 2⟩

/-- A store whose only row has zero norm. -/
def stB : VectorStore := ⟨some [[0]], [[("id", "z")]], [("z", 0)], some 1⟩

/-- A passage whose text contains "guidance". -/
def guidancePassage : Passage :=
  ⟨"follow the guidance of your lord", "", "the opening"⟩

/-- Aggregation of two passages with adjusted similarities 0.9 and 0.7,
no contextual score, one extracted theme. -/
def aggC3 : ChapterAgg := aggregate [(0.9, 0, ["patience"]), (0.7, 0, [])]

theorem buildIndexFrom_length (n : ℕ) (ms : List Meta) :
    (buildIndexFrom n ms).length = ms.length := by
  induction ms generalizing n with
  | nil => rfl
  | cons m rest ih => simp [buildIndexFrom, ih]

/-! ### Claims -/

/-- C9: calling `add_vectors` with differing vector and metadata counts
raises `ValueError` (modelled as `Except.error`) carrying the untouched
store state: the count check is the first statement of the method, before
any mutation. -/
theorem C9_count_mismatch_rejected (st : VectorStore) (vecs : List Vec) (d : ℕ)
    (metas : List Meta) (ids : Option (List String)) (now : String)
    (h : vecs.length ≠ metas.length) :
    st.add_vectors vecs d metas ids now =
      Except.error ("Number of vectors must match number of metadata entries", st) := by
  unfold VectorStore.add_vectors
  rw [if_pos h]

/-- Witness for C9 at a concrete input: two vectors, one metadata entry. -/
theorem C9_count_mismatch_rejected_witness :
    VectorStore.emptyStore.add_vectors [[1], [2]] 1 [[("note", "x")]] none "t" =
      Except.error ("Number of vectors must match number of metadata entries",
        VectorStore.emptyStore) :=
  C9_count_mismatch_rejected VectorStore.emptyStore [[1], [2]] 1 [[("note", "x")]]
    none "t" (by decide)

/-- C10: a query vector of zero norm makes `search` return `[]` for every
store state, `top_k`, `min_similarity` and filter — no exception and no
division by zero. -/
theorem C10_zero_query_returns_empty (st : VectorStore) (q : Vec) (k : ℕ)
    (m : ℚ) (flt : Option MFilter) (h : normSq q = 0) :
    st.search q k m flt = [] := by
  unfold VectorStore.search
  cases hv : st.vectors with
  | none => rfl
  | some vecs =>
    dsimp only
    by_cases h1 : vecs.length = 0
    · rw [if_pos h1]
    · rw [if_neg h1, if_pos h]

unseal Rat.add Rat.mul Rat.inv Rat.sub Rat.ofScientific in
/-- Witness for C10 at a concrete input: the zero query on a populated
store. -/
theorem C10_zero_query_returns_empty_witness :
    stA.search [0, 0] 5 0 none = [] :=
  C10_zero_query_returns_empty stA [0, 0] 5 0 none (by decide)

unseal Rat.add Rat.mul Rat.inv Rat.sub Rat.ofScientific in
/-- Counterexample to C4: loading one vector row against two metadata
entries leaves the mismatched artifacts in place — the store is not treated
as empty/uninitialized and no re-ingest is signalled. -/
theorem C4_load_validation_cex :
    ((VectorStore.emptyStore.load (some [[1]]) 1
        (some [[("id", "a")], [("id", "b")]]) (some [("a", 0), ("b", 1)])).1.vlen = 1) ∧
    ((VectorStore.emptyStore.load (some [[1]]) 1
        (some [[("id", "a")], [("id", "b")]]) (some [("a", 0), ("b", 1)])).1.metadata.length = 2) ∧
    ((VectorStore.emptyStore.load (some [[1]]) 1
        (some [[("id", "a")], [("id", "b")]]) (some [("a", 0), ("b", 1)])).1.vectors ≠ none) ∧
    ((VectorStore.emptyStore.load (some [[1]]) 1
        (some [[("id", "a")], [("id", "b")]]) (some [("a", 0), ("b", 1)])).1.metadata ≠ []) := by
  refine ⟨by decide, by decide, by decide, by decide⟩

/-- C4 amended: `load` performs no cross-artifact count validation — on a
row-count/metadata-length mismatch it installs the mismatched artifacts
unchanged (and, thanks to the catch-all `except`, returns a boolean rather
than raising). -/
theorem C4_load_installs_mismatched_artifacts (st : VectorStore) (vs : List Vec)
    (d : ℕ) (ms : List Meta) (ix : List (String × ℕ))
    (_mismatch : vs.length ≠ ms.length) :
    (st.load (some vs) d (some ms) (some ix)).1.vectors = some vs ∧
    (st.load (some vs) d (some ms) (some ix)).1.metadata = ms ∧
    (st.load (some vs) d (some ms) (some ix)).1.index = ix ∧
    (st.load (some vs) d (some ms) (some ix)).2 = true := by
  unfold VectorStore.load
  exact ⟨rfl, rfl, rfl, rfl⟩

/-- Witness for C4 at the concrete mismatched artifacts. -/
theorem C4_load_installs_mismatched_artifacts_witness :
    (VectorStore.emptyStore.load (some [[1]]) 1
        (some [[("id", "a")], [("id", "b")]]) (some [("a", 0), ("b", 1)])).1.vectors =
      some [[1]] ∧
    (VectorStore.emptyStore.load (some [[1]]) 1
        (some [[("id", "a")], [("id", "b")]]) (some [("a", 0), ("b", 1)])).1.metadata =
      [[("id", "a")], [("id", "b")]] ∧
    (VectorStore.emptyStore.load (some [[1]]) 1
        (some [[("id", "a")], [("id", "b")]]) (some [("a", 0), ("b", 1)])).1.index =
      [("a", 0), ("b", 1)] ∧
    (VectorStore.emptyStore.load (some [[1]]) 1
        (some [[("id", "a")], [("id", "b")]]) (some [("a", 0), ("b", 1)])).2 = true :=
  C4_load_installs_mismatched_artifacts VectorStore.emptyStore [[1]] 1
    [[("id", "a")], [("id", "b")]] [("a", 0), ("b", 1)] (by decide)

/-- Counterexample to C2: with the semantic path raising and a passage whose
text contains the theme, `search_verses_by_theme` returns `[]` while the
claimed substring fallback would return the passage — no fallback search
exists in the code. -/
theorem C2_no_fallback_cex :
    search_verses_by_theme "guidance" (Except.error "embedding failure")
      (fun (p : Passage) _ => p) = [] ∧
    specFallbackSearch [guidancePassage] "guidance" 5 = [guidancePassage] ∧
    ([] : List Passage) ≠ [guidancePassage] := by
  refine ⟨rfl, by decide, by decide⟩

/-- C2 amended: when the semantic path raises any exception, or returns zero
results, `search_verses_by_theme` swallows the error and returns the empty
list — it never propagates the exception and always returns a list, but it
performs no substring fallback. -/
theorem C2_error_and_empty_yield_empty_list :
    (∀ (V : Type) (conv : V → ℚ → V) (theme msg : String),
      search_verses_by_theme theme (Except.error msg) conv = []) ∧
    (∀ (V : Type) (conv : V → ℚ → V) (theme : String),
      search_verses_by_theme theme (Except.ok ([] : List (V × ℚ))) conv = []) := by
  constructor
  · intro V conv theme msg
    unfold search_verses_by_theme
    by_cases h : theme.isEmpty
    · rw [if_pos h]
    · rw [if_neg h]
  · intro V conv theme
    unfold search_verses_by_theme
    by_cases h : theme.isEmpty
    · rw [if_pos h]
    · rw [if_neg h]
      rfl

/-- C8: on the spec's acceptance input the category detector finds nothing:
every category (the "anxiety_stress" one in particular) scores 0 because no
category keyword or theme word occurs in the text, so the detector returns
`[]` instead of ranking "anxiety_stress" in the top 3. -/
theorem C8_detector_misses_anxiety_input :
    detect_wellness_categories "I feel so anxious and stressed about my exam" = [] ∧
    ∀ c ∈ wellnessCategories,
      relevanceScore c (lowerL "I feel so anxious and stressed about my exam") = 0 := by
  refine ⟨by decide, by decide⟩

unseal Rat.add Rat.mul Rat.inv Rat.sub Rat.ofScientific in
/-- Counterexample to C3: on the aggregated pair of passages (similarities
0.9 and 0.7, one extracted theme, `passage_count` 10) the code's composite
score is 0.67, while the claimed formula — whose last addend carries an
extra `0.05 *` factor — yields 0.6225. -/
theorem C3_formula_cex :
    composite_score aggC3 10 = 0.67 ∧
    composite_score_claimed aggC3 10 = 0.6225 ∧
    (0.67 : ℚ) ≠ 0.6225 := by
  refine ⟨by decide, by decide, by decide⟩

/-- C3 amended: the composite score is `0.4*avg_similarity +
0.3*max_similarity + 0.15*verse_density + 0.10*avg_contextual +
min(theme_diversity*0.05, 0.05)` (no extra `0.05` factor on the last term).
For two passages with adjusted similarities 0.9 and 0.7 in a chapter with
`passage_count = 10`, `avg_similarity = 0.8`, `verse_density = 0.2`, and
the composite score lies strictly between 0.3 and 0.9, for any per-verse
contextual scores in `[0, 1]` and any extracted themes. -/
theorem C3_scenario_bounds (c1 c2 : ℚ) (h1 : 0 ≤ c1) (h2 : c1 ≤ 1)
    (h3 : 0 ≤ c2) (h4 : c2 ≤ 1) (ths1 ths2 : List String) :
    (aggregate [(0.9, c1, ths1), (0.7, c2, ths2)]).total_similarity /
        ((aggregate [(0.9, c1, ths1), (0.7, c2, ths2)]).verse_count : ℚ) = 0.8 ∧
    min (((aggregate [(0.9, c1, ths1), (0.7, c2, ths2)]).verse_count : ℚ) / (10 : ℚ)) 1
      = 0.2 ∧
    0.3 < composite_score (aggregate [(0.9, c1, ths1), (0.7, c2, ths2)]) 10 ∧
    composite_score (aggregate [(0.9, c1, ths1), (0.7, c2, ths2)]) 10 < 0.9 := by
  have hagg : aggregate [(0.9, c1, ths1), (0.7, c2, ths2)] =
      ⟨0 + 0.9 + 0.7, max (max 0 0.9) 0.7, 2, 0 + c1 + c2,
        (∅ ∪ ths1.toFinset) ∪ ths2.toFinset⟩ := rfl
  have hmax : max (max (0 : ℚ) 0.9) 0.7 = 0.9 := by
    rw [max_eq_right (by norm_num : (0 : ℚ) ≤ 0.9),
      max_eq_left (by norm_num : (0.7 : ℚ) ≤ 0.9)]
  have htot : (0 : ℚ) + 0.9 + 0.7 = 1.6 := by norm_num
  rw [hagg]
  unfold composite_score
  dsimp only
  rw [hmax, htot]
  have hcast : ((2 : ℕ) : ℚ) = 2 := by norm_num
  rw [hcast]
  have hdens : min ((2 : ℚ) / (10 : ℚ)) 1 = 0.2 := by
    rw [min_eq_left (by norm_num : (2 : ℚ) / 10 ≤ 1)]
    norm_num
  set t := min ((((∅ ∪ ths1.toFinset) ∪ ths2.toFinset).card : ℚ) * 0.05) 0.05 with ht
  have ht0 : 0 ≤ t := le_min (by positivity) (by norm_num)
  have ht1 : t ≤ 0.05 := min_le_right _ _
  have hcast10 : ((10 : ℕ) : ℚ) = 10 := by norm_num
  have hd2 : ((2 : ℚ) / 10 ⊓ 1) = 0.2 := by
    rw [min_eq_left (by norm_num : (2 : ℚ) / 10 ≤ 1)]
    norm_num
  refine ⟨by norm_num, hdens, ?_, ?_⟩
  · rw [hcast10, hd2, if_pos (show (0 : ℕ) < 10 from by norm_num)]
    have hu : (0 : ℚ) ≤ (0 + c1 + c2) / 2 := by positivity
    nlinarith [ht0, ht1]
  · rw [hcast10, hd2, if_pos (show (0 : ℕ) < 10 from by norm_num)]
    have hu : (0 + c1 + c2) / 2 ≤ 1 := by nlinarith
    nlinarith [ht0, ht1]

unseal Rat.add Rat.mul Rat.inv Rat.sub Rat.ofScientific in
/-- Witness for C3 at concrete contextual scores 0 and empty theme lists. -/
theorem C3_scenario_bounds_witness :
    (aggregate [(0.9, 0, []), (0.7, 0, [])]).total_similarity /
        ((aggregate [(0.9, 0, []), (0.7, 0, [])]).verse_count : ℚ) = 0.8 ∧
    min (((aggregate [(0.9, 0, []), (0.7, 0, [])]).verse_count : ℚ) / (10 : ℚ)) 1
      = 0.2 ∧
    0.3 < composite_score (aggregate [(0.9, 0, []), (0.7, 0, [])]) 10 ∧
    composite_score (aggregate [(0.9, 0, []), (0.7, 0, [])]) 10 < 0.9 :=
  C3_scenario_bounds 0 0 (by norm_num) (by norm_num) (by norm_num) (by norm_num) [] []

/-- Counterexample to C7: auto-generated ids use the prefix `"verse_"`, not
`"item_"` — adding one vector to an empty store assigns `"verse_0"`. -/
theorem C7_auto_id_prefix_cex :
    (VectorStore.emptyStore.add_vectors [[1]] 1 [[]] none "t").toOption.map Prod.snd =
      some ["verse_0"] ∧
    some ["verse_0"] ≠ some ["item_0"] := by
  refine ⟨by decide, by decide⟩

/-- C7 amended: with `ids` omitted, `add_vectors` assigns the sequential ids
`"verse_<n>"` starting at the pre-insert metadata length, returns them in
row order, appends the vectors in row order, and stamps the id of row `i`
into the metadata entry at position `len_before + i`. -/
theorem C7_auto_ids_sequential (st st' : VectorStore) (vecs : List Vec) (d : ℕ)
    (metas : List Meta) (now : String) (out : List String)
    (h : st.add_vectors vecs d metas none now = Except.ok (st', out)) :
    out = (List.range vecs.length).map
        (fun i => "verse_" ++ toString (st.metadata.length + i)) ∧
    st'.vectors = some (st.vectors.getD [] ++ vecs) ∧
    ∀ i, i < vecs.length →
      idOf (st'.metadata.getD (st.metadata.length + i) []) =
        "verse_" ++ toString (st.metadata.length + i) := by
  obtain ⟨hlen, dim', hst', hout⟩ := add_vectors_ok h
  have hgen_len : (genIds st vecs.length).length = vecs.length := by
    simp [genIds]
  have hzip_snd : (metas.zip (genIds st vecs.length)).map Prod.snd =
      genIds st vecs.length :=
    List.map_snd_zip _ _ (by rw [hgen_len, hlen])
  have hout' : out = genIds st vecs.length := by
    rw [hout]
    exact hzip_snd
  refine ⟨hout', ?_, ?_⟩
  · rw [hst']
    exact addLoop_vectors now _ _
  · intro i hi
    have hmd : st'.metadata = st.metadata ++
        (metas.zip (genIds st vecs.length)).map (stamp now) := by
      rw [hst']
      exact addLoop_metadata now _ _
    have hps_len : ((metas.zip (genIds st vecs.length)).map (stamp now)).length =
        vecs.length := by
      simp [List.length_zip, hgen_len, ← hlen]
    rw [hmd, List.getD_append_right _ _ _ _ (by omega)]
    rw [show st.metadata.length + i - st.metadata.length = i from by omega]
    have hi' : i < ((metas.zip (genIds st vecs.length)).map (stamp now)).length := by
      omega
    rw [List.getD_eq_getElem _ _ hi']
    rw [List.getElem_map]
    rw [idOf_stamp]
    have hiz : i < (metas.zip (genIds st vecs.length)).length := by
      simpa using hi'
    rw [List.getElem_zip]
    have hig : i < (genIds st vecs.length).length := by omega
    show (genIds st vecs.length)[i] = _
    unfold genIds
    simp

unseal Rat.add Rat.mul Rat.inv Rat.sub Rat.ofScientific in
/-- Witness for C7: adding two rows to the empty store yields ids
`"verse_0"`, `"verse_1"` in row order. -/
theorem C7_auto_ids_sequential_witness :
    ["verse_0", "verse_1"] = (List.range ([[1], [2]] : List Vec).length).map
        (fun i => "verse_" ++ toString (VectorStore.emptyStore.metadata.length + i)) ∧
    (⟨some [[1], [2]],
      [[("added_at", "t"), ("id", "verse_0")], [("added_at", "t"), ("id", "verse_1")]],
      [("verse_0", 0), ("verse_1", 1)], some 1⟩ : VectorStore).vectors =
      some (VectorStore.emptyStore.vectors.getD [] ++ [[1], [2]]) ∧
    ∀ i, i < ([[1], [2]] : List Vec).length →
      idOf ((⟨some [[1], [2]],
        [[("added_at", "t"), ("id", "verse_0")], [("added_at", "t"), ("id", "verse_1")]],
        [("verse_0", 0), ("verse_1", 1)], some 1⟩ : VectorStore).metadata.getD
          (VectorStore.emptyStore.metadata.length + i) []) =
        "verse_" ++ toString (VectorStore.emptyStore.metadata.length + i) :=
  C7_auto_ids_sequential VectorStore.emptyStore _ [[1], [2]] 1 [[], []] "t"
    ["verse_0", "verse_1"] rfl

theorem scoreLeB_mk_pos_zero {m : ℚ} (hm : 0 < m) :
    scoreLeB (mkScore m 1) (mkScore 0 1) = false := by
  have h1 : (mkScore m 1).num = m := (mkScore_num_rad m 1 one_pos).1
  have h2 : (mkScore 0 1).num = 0 := (mkScore_num_rad 0 1 one_pos).1
  unfold scoreLeB
  rw [h1, h2, if_pos hm]
  simp

unseal Rat.add Rat.mul Rat.inv Rat.sub Rat.ofScientific in
/-- Counterexample to C1: with `min_similarity = 0` (the default) the stored
zero-norm vector `[0, 0]` (id "a") appears in the results of `search` —
zero-norm vectors are not excluded from the candidate set, they are scored
`0` and pass the `score >= min_similarity` test. -/
theorem C1_zero_norm_included_cex :
    normSq [0, 0] = 0 ∧
    ("a", [("id", "a")], mkScore 0 1) ∈ stA.search [1, 0] 5 0 none := by
  refine ⟨by decide, by decide⟩

/-- C1 amended: a stored vector with zero norm is never divided by — its
similarity is the exact score `0` installed without division (so no NaN can
arise) — and whenever `min_similarity > 0` its entry cannot appear in the
results; with `min_similarity ≤ 0` it may appear, carrying score `0`. -/
theorem C1_zero_norm_score_zero_and_excluded (st : VectorStore) (q : Vec) (k : ℕ)
    (m : ℚ) (flt : Option MFilter) (hwf : WF st) :
    ∀ i, i < st.vlen → normSq ((st.vectors.getD []).getD i []) = 0 →
      (simScores (st.vectors.getD []) q).getD i (mkScore 0 1) = mkScore 0 1 ∧
      (0 < m → entryOf st q i ∉ st.search q k m flt) := by
  intro i hi hz
  have hi' : i < (st.vectors.getD []).length := hi
  have hsim : (simScores (st.vectors.getD []) q).getD i (mkScore 0 1) = mkScore 0 1 := by
    unfold simScores
    rw [List.getD_eq_getElem _ _ (by simpa using hi'), List.getElem_map]
    rw [List.getD_eq_getElem _ _ hi'] at hz
    apply mkScore_of_nonpos
    rw [hz, zero_mul]
    exact lt_irrefl 0
  refine ⟨hsim, ?_⟩
  intro hm hmem
  obtain ⟨j, hj, hej⟩ := mem_search hmem
  obtain ⟨hjlt, hjle⟩ := searchCandidates_mem_range hj
  have hi_md : i < st.metadata.length := by
    have := hwf.1
    unfold VectorStore.vlen at this
    omega
  have hfst : idOf (st.metadata.getD i []) = idOf (st.metadata.getD j []) :=
    congrArg Prod.fst hej
  have hij : i = j := by
    have hnd := hwf.2.1
    have e1 : (st.metadata.map idOf).get ⟨i, by simpa using hi_md⟩ =
        idOf (st.metadata.getD i []) := by
      rw [List.get_eq_getElem, List.getElem_map, List.getD_eq_getElem _ _ hi_md]
    have e2 : (st.metadata.map idOf).get ⟨j, by simpa using hjlt⟩ =
        idOf (st.metadata.getD j []) := by
      rw [List.get_eq_getElem, List.getElem_map, List.getD_eq_getElem _ _ hjlt]
    have hfin : (⟨i, by simpa using hi_md⟩ : Fin (st.metadata.map idOf).length) =
        ⟨j, by simpa using hjlt⟩ :=
      (List.Nodup.get_inj_iff hnd).mp (by rw [e1, e2, hfst])
    exact congrArg Fin.val hfin
  rw [← hij, hsim] at hjle
  rw [scoreLeB_mk_pos_zero hm] at hjle
  exact Bool.false_ne_true hjle

unseal Rat.add Rat.mul Rat.inv Rat.sub Rat.ofScientific in
/-- Witness for C1 at the concrete store `stA`, row 0 (the zero vector),
with `min_similarity = 1/2`. -/
theorem C1_zero_norm_score_zero_and_excluded_witness :
    (simScores (stA.vectors.getD []) [1, 0]).getD 0 (mkScore 0 1) = mkScore 0 1 ∧
    (0 < (1/2 : ℚ) → entryOf stA [1, 0] 0 ∉ stA.search [1, 0] 5 (1/2) none) :=
  C1_zero_norm_score_zero_and_excluded stA [1, 0] 5 (1/2) none
    ⟨by decide, by decide, by decide⟩ 0 (by decide) (by decide)

unseal Rat.add Rat.mul Rat.inv Rat.sub Rat.ofScientific in
/-- Counterexample to C6: on a non-empty store whose only row has zero norm,
`search` short-circuits to `[]` although the row's (zero) score passes
`min_similarity = 0` — so the result is not "exactly the stored entries with
score above the threshold". -/
theorem C6_all_zero_rows_cex :
    stB.search [1] 5 0 none = [] ∧
    claimSearch stB [1] 5 0 none = [("z", [("id", "z")], mkScore 0 1)] ∧
    ([] : List (String × Meta × Score)) ≠ [("z", [("id", "z")], mkScore 0 1)] := by
  refine ⟨by decide, by decide, by decide⟩

/-- C6 amended: provided the query has non-zero norm and at least one stored
row has non-zero norm, `search` returns exactly the threshold-and-filter
candidates (in insertion order, zero-norm rows carrying score 0), stably
sorted descending by score, truncated to `top_k`; the result list is sorted
descending.  (When the query or all rows have zero norm it returns `[]`.) -/
theorem C6_search_matches_spec (st : VectorStore) (q : Vec) (k : ℕ) (m : ℚ)
    (flt : Option MFilter) (hq : normSq q ≠ 0)
    (hnz : ∃ v ∈ st.vectors.getD [], normSq v ≠ 0) :
    st.search q k m flt = claimSearch st q k m flt ∧
    (st.search q k m flt).Pairwise entryRel := by
  obtain ⟨v, hv_mem, hv_nz⟩ := hnz
  cases hvec : st.vectors with
  | none =>
    rw [hvec] at hv_mem
    simp at hv_mem
  | some vecs =>
    rw [hvec] at hv_mem
    simp only [Option.getD_some] at hv_mem
    have h1 : ¬ vecs.length = 0 := by
      intro h0
      rw [List.length_eq_zero] at h0
      subst h0
      simp at hv_mem
    have h3 : vecs.all (fun v => decide (normSq v = 0)) = false := by
      rw [List.all_eq_false]
      exact ⟨v, hv_mem, by simp [hv_nz]⟩
    have heq : st.search q k m flt = claimSearch st q k m flt := by
      rw [search_eq_main hvec h1 hq h3]
      unfold claimSearch
      have hmapmap : (searchCandidates st q m flt).map (entryOf st q) =
          ((searchCandidates st q m flt).map
            (fun i => (i, (simScores vecs q).getD i (mkScore 0 1)))).map
            (fun p => (idOf (st.metadata.getD p.1 []), st.metadata.getD p.1 [], p.2)) := by
        rw [List.map_map]
        apply List.map_congr_left
        intro i _
        unfold entryOf
        rw [hvec]
        rfl
      rw [hmapmap]
      rw [← List.map_insertionSort pairRel entryRel
        (fun p => (idOf (st.metadata.getD p.1 []), st.metadata.getD p.1 [], p.2))
        ((searchCandidates st q m flt).map
          (fun i => (i, (simScores vecs q).getD i (mkScore 0 1))))
        (fun a _ b _ => Iff.rfl)]
      rw [List.map_take]
    refine ⟨heq, ?_⟩
    rw [heq]
    unfold claimSearch
    exact List.Pairwise.sublist (List.take_sublist k _)
      (List.sorted_insertionSort entryRel _)

unseal Rat.add Rat.mul Rat.inv Rat.sub Rat.ofScientific in
/-- Witness for C6 at the concrete store `stA` and the unit query. -/
theorem C6_search_matches_spec_witness :
    stA.search [1, 0] 5 0 none = claimSearch stA [1, 0] 5 0 none ∧
    (stA.search [1, 0] 5 0 none).Pairwise entryRel :=
  C6_search_matches_spec stA [1, 0] 5 0 none (by decide) (by decide)

unseal Rat.add Rat.mul Rat.inv Rat.sub Rat.ofScientific in
/-- Counterexample to C5: a single `add_vectors` call with a one-id list for
two vectors (Python's `zip` silently truncates) leaves the three structures
out of lockstep: 2 vector rows, 1 metadata entry, 1 index entry. -/
theorem C5_lockstep_cex :
    (VectorStore.emptyStore.add_vectors [[1], [2]] 1 [[], []] (some ["a"]) "t").toOption.map
        (fun p => (p.1.vlen, p.1.metadata.length, p.1.index.length)) = some (2, 1, 1) ∧
    (2 : ℕ) ≠ 1 := by
  refine ⟨by decide, by decide⟩

/-- C5 amended: provided each insert's assigned ids are fresh, pairwise
distinct, and cover every inserted row, `len(vectors) == len(metadata) ==
len(index)` is preserved by `add_vectors`; `delete` and `clear` always
preserve it, and after a deletion the rebuilt id index maps only to
positions below the new length. -/
theorem C5_lockstep_invariant (st : VectorStore) (hwf : WF st) :
    (∀ (vecs : List Vec) (d : ℕ) (metas : List Meta) (ids : Option (List String))
        (now : String) (st' : VectorStore) (out : List String),
        st.add_vectors vecs d metas ids now = Except.ok (st', out) →
        out.length = vecs.length → out.Nodup →
        (∀ s ∈ out, s ∉ st.metadata.map idOf) →
        st'.metadata.length = st'.vlen ∧ st'.index.length = st'.metadata.length ∧ WF st') ∧
    (∀ vid : String,
        WF (st.delete vid).1 ∧
        (st.delete vid).1.metadata.length = (st.delete vid).1.vlen ∧
        (st.delete vid).1.index.length = (st.delete vid).1.metadata.length ∧
        ∀ p ∈ (st.delete vid).1.index, p.2 < (st.delete vid).1.metadata.length) ∧
    (WF st.clear ∧ st.clear.metadata.length = st.clear.vlen ∧
      st.clear.index.length = st.clear.metadata.length) := by
  refine ⟨?_, ?_, ?_⟩
  · intro vecs d metas ids now st' out h hlen hnd hfresh
    have hwf' := WF_add hwf h hlen hnd hfresh
    refine ⟨hwf'.1, ?_, hwf'⟩
    rw [hwf'.2.2, buildIndexFrom_length]
  · intro vid
    obtain ⟨hwfd, hbound⟩ := WF_delete hwf vid
    refine ⟨hwfd, hwfd.1, ?_, hbound⟩
    rw [hwfd.2.2, buildIndexFrom_length]
  · refine ⟨WF_clear st, (WF_clear st).1, ?_⟩
    rw [(WF_clear st).2.2, buildIndexFrom_length]

unseal Rat.add Rat.mul Rat.inv Rat.sub Rat.ofScientific in
/-- Witness for C5 at the concrete store `stA`: deletion of id "a" and
`clear` preserve well-formedness. -/
theorem C5_lockstep_invariant_witness :
    WF (stA.delete "a").1 ∧ WF stA.clear :=
  ⟨((C5_lockstep_invariant stA ⟨by decide, by decide, by decide⟩).2.1 "a").1,
    ((C5_lockstep_invariant stA ⟨by decide, by decide, by decide⟩).2.2).1⟩
